import Mathlib

/-!
# Verification of the SearchViews dependency-matching engine

A shallow embedding of `SearchView.py`'s core function
`search_view_dependencies` (lines 53-145 of the source), together with the
small parts of the Python/pandas string machinery it relies on:

* `str.split`, `str.strip`, `str.lower`, `str.replace` are modelled as
  recursive functions over `List Char`;
* `Series.str.contains(pat, case=False, regex=True)` is modelled by a
  regular-expression fragment (`RChar`) that covers exactly the behaviour
  the engine can exercise with the patterns it builds: literal characters
  (matched case-insensitively, as under `re.IGNORECASE`), the
  metacharacter `.` (any character except newline), and a compile-time
  error for the remaining regex metacharacters; patterns containing such
  a metacharacter make the whole call fail, mirroring the `re.error`
  raised by `re.compile` (e.g. for an unbalanced parenthesis);
* the in-place mutation of the dependency dataframe performed by line 80
  (`df['ReferencedColumns'] = ',' + df['ReferencedColumns'] + ','`) is
  modelled by explicit state passing: the engine returns the final state
  of the dependency relation alongside its result;
* Python's `set` / `sorted` are modelled by `List.dedup` and an insertion
  sort on `String` (only membership and the final sorted order of the set
  are ever observable).

A raised exception is modelled as `none`; a normal return as `some`.
-/

namespace SearchViews

/-- A row of the view-dependency relation (`viewDependencies.csv`):
view name, referenced table, comma-joined referenced column list. -/
structure DepRow where
  ViewName : String
  ReferencedTable : String
  ReferencedColumns : String
deriving DecidableEq

/-- A row of the output-columns relation (`viewColumns.csv`). -/
structure ColsRow where
  ViewName : String
  OutputColumns : String
deriving DecidableEq

/-- One entry of a result record's `Dependencies` list. -/
structure DepEntry where
  Table : String
  Columns : String
deriving DecidableEq

/-- One record of the engine's result list. -/
structure ResultRecord where
  View : String
  Dependencies : List DepEntry
  OutputColumns : String
  Code : String
deriving DecidableEq

/-! ## Python string primitives -/

/-- The whitespace characters recognised by Python's `str.split()` /
`str.strip()` (ASCII fragment). -/
def pyIsSpace (c : Char) : Bool :=
  c = ' ' || c = '\t' || c = '\n' || c = '\r' || c = '\x0b' || c = '\x0c'

/-- Python `str.strip(chars)`: drop the characters satisfying `p` from both
ends. -/
def pyStripP (p : Char → Bool) (l : List Char) : List Char :=
  ((l.dropWhile p).reverse.dropWhile p).reverse

/-- Python `str.strip()` (strip whitespace). -/
def pyStrip (l : List Char) : List Char :=
  pyStripP pyIsSpace l

/-- Python `str.strip(',')`. -/
def pyStripComma (l : List Char) : List Char :=
  pyStripP (fun c => c = ',') l

/-- Python `str.lower()` (ASCII fragment, one character). -/
def pyLower (l : List Char) : List Char :=
  l.map Char.toLower

/-- Auxiliary for `splitOnChar`; `acc` holds the current field reversed. -/
def splitOnAux (sep : Char) : List Char → List Char → List (List Char)
  | [], acc => [acc.reverse]
  | c :: cs, acc =>
    if c = sep then acc.reverse :: splitOnAux sep cs []
    else splitOnAux sep cs (c :: acc)

/-- Python `str.split(sep)` for a one-character separator: keeps empty
fields, `"".split(sep) = [""]`. -/
def splitOnChar (sep : Char) (l : List Char) : List (List Char) :=
  splitOnAux sep l []

/-- Auxiliary for `splitWs`; `acc` holds the current token reversed. -/
def splitWsAux : List Char → List Char → List (List Char)
  | [], acc => if acc.isEmpty then [] else [acc.reverse]
  | c :: cs, acc =>
    if pyIsSpace c then
      (if acc.isEmpty then [] else [acc.reverse]) ++ splitWsAux cs []
    else splitWsAux cs (c :: acc)

/-- Python `str.split()` (no argument): split on runs of whitespace,
discarding empty tokens. -/
def splitWs (l : List Char) : List (List Char) :=
  splitWsAux l []

/-! ## The regex fragment used by `Series.str.contains` -/

/-- One compiled pattern element: a literal character or the
metacharacter `.`. -/
inductive RChar where
  | lit (c : Char)
  | dot
deriving DecidableEq

/-- The regex metacharacters this model does not interpret: a pattern
containing one of them fails to compile (modelling the `re.error` the
engine would surface for e.g. an unbalanced parenthesis; the patterns
appearing in the verified statements below never contain them). -/
def regexSpecials : List Char :=
  ['\\', '(', ')', '[', ']', '\x7b', '\x7d', '*', '+', '?', '|', '^', '$']

/-- Compile one pattern character. -/
def compileChar (c : Char) : Option RChar :=
  if c ∈ regexSpecials then none
  else if c = '.' then some RChar.dot
  else some (RChar.lit c)

/-- Compile a pattern string; `none` models `re.error`. -/
def compilePattern : List Char → Option (List RChar)
  | [] => some []
  | c :: cs =>
    match compileChar c, compilePattern cs with
    | some r, some rs => some (r :: rs)
    | _, _ => none

/-- Does one pattern element match one subject character?  Literals are
compared case-insensitively (`re.IGNORECASE`, from `case=False`); `.`
matches anything but a newline. -/
def rcharMatch : RChar → Char → Bool
  | RChar.lit l, c => c.toLower = l.toLower
  | RChar.dot, c => c ≠ '\n'

/-- Does the pattern match at the very start of the subject? -/
def matchHere : List RChar → List Char → Bool
  | [], _ => true
  | _ :: _, [] => false
  | r :: rs, c :: cs => rcharMatch r c && matchHere rs cs

/-- Does the pattern match anywhere in the subject (`re.search`)? -/
def searchFrom (pat : List RChar) : List Char → Bool
  | [] => matchHere pat []
  | c :: cs => matchHere pat (c :: cs) || searchFrom pat cs

/-! ## The engine (`search_view_dependencies`, lines 75-145) -/

/-- `',' + s + ','`: the delimiter wrapping used for exact matching. -/
def wrapList (l : List Char) : List Char :=
  ',' :: (l ++ [','])

/-- Line 80: `df['ReferencedColumns'] = ',' + df['ReferencedColumns'] + ','`
applied to one row. -/
def wrapRow (r : DepRow) : DepRow :=
  { r with ReferencedColumns := String.mk (wrapList r.ReferencedColumns.data) }

/-- Line 80 applied to the whole dependency relation (in-place in Python;
explicit state here). -/
def wrapDf (df : List DepRow) : List DepRow :=
  df.map wrapRow

/-- Line 77: `[term.strip() for term in search_terms.replace(',', ' ').split()]`. -/
def tokenize (q : String) : List (List Char) :=
  (splitWs (q.data.map (fun c => if c = ',' then ' ' else c))).map pyStrip

/-- Line 91: `parts = term.split('.')`. -/
def termSegs (t : List Char) : List (List Char) :=
  splitOnChar '.' t

/-- Line 92: `parts[0]` (before `strip().lower()`). -/
def termTableRaw (t : List Char) : List Char :=
  (termSegs t).headD []

/-- Lines 93-95: `parts[1]` when present, else `''` (before
`strip().lower()`). -/
def termColumnRaw (t : List Char) : List Char :=
  match termSegs t with
  | _ :: c :: _ => c
  | _ => []

/-- Lines 97-100: the table pattern — strip a leading `%` for a substring
match, otherwise wrap in commas for a whole-token match. -/
def tablePat (table : List Char) : List Char :=
  match table with
  | c :: rest => if c = '%' then rest else wrapList table
  | [] => wrapList table

/-- Lines 102-105: the column pattern — strip a leading `%`, wrap a
nonempty column in commas, leave an empty column as the empty pattern. -/
def colPat (column : List Char) : List Char :=
  match column with
  | c :: rest => if c = '%' then rest else wrapList column
  | [] => []

/-- Lines 107-110, one row: the row passes when the comma-wrapped
`ReferencedTable` matches the table pattern and the comma-wrapped
`ReferencedColumns` (already comma-wrapped once by line 80) matches the
column pattern. -/
def rowSatB (tp cp : List RChar) (r : DepRow) : Bool :=
  searchFrom tp (wrapList r.ReferencedTable.data) &&
    searchFrom cp (wrapList r.ReferencedColumns.data)

/-- Lines 87-89: evaluate a `>`-term: the set (as a list of view names) of
output-column rows whose `OutputColumns` contains the needle. -/
def evalOutput (needle : List Char) (view_cols : List ColsRow) : Option (List String) :=
  match compilePattern needle with
  | none => none
  | some p =>
    some ((view_cols.filter (fun r => searchFrom p r.OutputColumns.data)).map
      (fun r => r.ViewName))

/-- Lines 91-110: evaluate a table/column term against the (already
wrapped) dependency relation. -/
def evalTable (t : List Char) (df : List DepRow) : Option (List String) :=
  let table := pyLower (pyStrip (termTableRaw t))
  let column := pyLower (pyStrip (termColumnRaw t))
  match compilePattern (tablePat table), compilePattern (colPat column) with
  | some tp, some cp => some ((df.filter (rowSatB tp cp)).map (fun r => r.ViewName))
  | _, _ => none

/-- Lines 86-110: evaluate one term (`>`-form or table/column form). -/
def evalTerm (df : List DepRow) (view_cols : List ColsRow) (t : List Char) :
    Option (List String) :=
  match t with
  | c :: rest => if c = '>' then evalOutput (pyLower (pyStrip rest)) view_cols
      else evalTable t df
  | [] => evalTable [] df

/-- Line 113: `matched_views.intersection_update(matches)`, with `none`
propagating a raised `re.error`. -/
def stepTerm (df : List DepRow) (view_cols : List ColsRow)
    (acc : Option (List String)) (t : List Char) : Option (List String) :=
  match acc, evalTerm df view_cols t with
  | some s, some m => some (s.filter (fun v => m.contains v))
  | _, _ => none

/-- Lines 83-113: the matched-view set — initialised to all distinct views
of the dependency relation, then intersected with every term's matches. -/
def matchedViews (df : List DepRow) (view_cols : List ColsRow)
    (ts : List (List Char)) : Option (List String) :=
  ts.foldl (stepTerm df view_cols) (some ((df.map (fun r => r.ViewName)).dedup))

/-- Insert a string into a (sorted) list, preserving order. -/
def insertSorted (s : String) : List String → List String
  | [] => [s]
  | x :: xs => if x < s then x :: insertSorted s xs else s :: x :: xs

/-- Python `sorted` on a list of strings (insertion sort, ascending). -/
def sortStrings (l : List String) : List String :=
  l.foldr insertSorted []

/-- Lines 117-143: assemble the result record of one matched view from the
(wrapped) dependency relation, the output-columns relation and the code
list; `strip(',')` removes the wrapping commas from each column list. -/
def assembleView (df : List DepRow) (view_cols : List ColsRow)
    (view_code : List (String × String)) (v : String) : ResultRecord :=
  { View := v
    Dependencies :=
      (df.filter (fun r => r.ViewName == v)).map
        (fun r => { Table := r.ReferencedTable
                    Columns := String.mk (pyStripComma r.ReferencedColumns.data) })
    OutputColumns :=
      match view_cols.find? (fun r => r.ViewName == v) with
      | some r => r.OutputColumns
      | none => ""
    Code :=
      match view_code.find? (fun p => p.1 == v) with
      | some p => p.2
      | none => "" }

/-- Lines 53-145: the whole engine.  First component: the result list
(`none` models a raised exception); second component: the final state of
the caller's dependency relation (mutated in place by line 80). -/
def search_view_dependencies (df : List DepRow) (search_terms : String)
    (view_cols : List ColsRow) (view_code : List (String × String)) :
    Option (List ResultRecord) × List DepRow :=
  let df2 := wrapDf df
  match matchedViews df2 view_cols (tokenize search_terms) with
  | none => (none, df2)
  | some m =>
    (some ((sortStrings m).map (assembleView df2 view_cols view_code)), df2)

/-! ## Helper lemmas: the regex fragment -/

theorem matchHere_lits (nd : List Char) : ∀ cs : List Char,
    (matchHere (nd.map RChar.lit) cs = true ↔ pyLower nd <+: pyLower cs) := by
  induction nd with
  | nil => intro cs; simp [matchHere, pyLower]
  | cons a as ih =>
    intro cs
    cases cs with
    | nil => simp [matchHere, pyLower]
    | cons c cs =>
      have h1 := ih cs
      constructor
      · intro h
        simp only [List.map_cons, matchHere, Bool.and_eq_true, rcharMatch,
          decide_eq_true_eq] at h
        simp only [pyLower, List.map_cons, List.cons_prefix_cons]
        exact ⟨h.1.symm, by simpa [pyLower] using h1.mp h.2⟩
      · intro h
        simp only [pyLower, List.map_cons, List.cons_prefix_cons] at h
        simp only [List.map_cons, matchHere, Bool.and_eq_true, rcharMatch,
          decide_eq_true_eq]
        exact ⟨h.1.symm, h1.mpr (by simpa [pyLower] using h.2)⟩

theorem searchFrom_iff (pat : List RChar) : ∀ cs : List Char,
    (searchFrom pat cs = true ↔ ∃ t, t <:+ cs ∧ matchHere pat t = true) := by
  intro cs
  induction cs with
  | nil =>
    simp [searchFrom]
  | cons c cs ih =>
    simp [searchFrom, ih, List.suffix_cons_iff, or_and_right, exists_or,
      exists_eq_left]

theorem suffix_of_map (f : Char → Char) (t : List Char) : ∀ l : List Char,
    t <:+ l.map f → ∃ t0, t0 <:+ l ∧ t = t0.map f := by
  intro l
  induction l with
  | nil => intro h; simp_all
  | cons c cs ih =>
    intro h
    rcases List.suffix_cons_iff.mp h with h | h
    · exact ⟨c :: cs, List.suffix_refl _, h⟩
    · rcases ih h with ⟨t0, h1, h2⟩
      exact ⟨t0, h1.trans (List.suffix_cons c cs), h2⟩

theorem searchFrom_lits (nd cs : List Char) :
    searchFrom (nd.map RChar.lit) cs = true ↔ pyLower nd <:+: pyLower cs := by
  rw [searchFrom_iff]
  constructor
  · rintro ⟨t, hts, hm⟩
    exact List.infix_iff_prefix_suffix.mpr
      ⟨pyLower t, (matchHere_lits nd t).mp hm, hts.map Char.toLower⟩
  · intro h
    rcases List.infix_iff_prefix_suffix.mp h with ⟨t, h1, h2⟩
    rcases suffix_of_map Char.toLower t cs h2 with ⟨t0, h3, h4⟩
    refine ⟨t0, h3, (matchHere_lits nd t0).mpr ?_⟩
    show pyLower nd <+: pyLower t0
    simp only [pyLower] at h1 ⊢
    rw [← h4]
    exact h1

theorem compile_lits (l : List Char)
    (h : ∀ c ∈ l, c ∉ regexSpecials ∧ c ≠ '.') :
    compilePattern l = some (l.map RChar.lit) := by
  induction l with
  | nil => rfl
  | cons c cs ih =>
    have hc := h c (by simp)
    have hcs := ih (fun d hd => h d (by simp [hd]))
    simp [compilePattern, compileChar, hc.1, hc.2, hcs]

theorem compile_safe (l : List Char) (h : ∀ c ∈ l, c ∉ regexSpecials) :
    (compilePattern l).isSome := by
  induction l with
  | nil => simp [compilePattern]
  | cons c cs ih =>
    have hc := h c (by simp)
    have hcs := ih (fun d hd => h d (by simp [hd]))
    rcases Option.isSome_iff_exists.mp hcs with ⟨p, hp⟩
    by_cases hdot : c = '.'
    · simp [compilePattern, compileChar, hc, hdot, hp, regexSpecials]
    · simp [compilePattern, compileChar, hc, hdot, hp]

/-! ## Helper lemmas: `Char.toLower` -/

theorem toLower_eq_nonletter (c s : Char)
    (hs : ¬(97 ≤ s.toNat ∧ s.toNat ≤ 122)) (h : c.toLower = s) : c = s := by
  simp only [Char.toLower] at h
  split at h
  · exfalso
    rename_i hcond
    obtain ⟨h1, h2⟩ := hcond
    generalize hg : c.toNat = n at h h1 h2
    interval_cases n <;> (subst h; exact hs (by decide))
  · exact h

theorem toLower_mem_specials (c : Char) (h : c.toLower ∈ regexSpecials) :
    c ∈ regexSpecials := by
  have hm : c.toLower = '\\' ∨ c.toLower = '(' ∨ c.toLower = ')' ∨
      c.toLower = '[' ∨ c.toLower = ']' ∨ c.toLower = '\x7b' ∨
      c.toLower = '\x7d' ∨ c.toLower = '*' ∨ c.toLower = '+' ∨
      c.toLower = '?' ∨ c.toLower = '|' ∨ c.toLower = '^' ∨
      c.toLower = '$' := by simpa [regexSpecials] using h
  rcases hm with h' | h' | h' | h' | h' | h' | h' | h' | h' | h' | h' | h' | h' <;>
    (rw [toLower_eq_nonletter c _ (by decide) h']; simp [regexSpecials])

theorem toLower_eq_comma (c : Char) (h : c.toLower = ',') : c = ',' :=
  toLower_eq_nonletter c ',' (by decide) h

theorem toLower_eq_dot (c : Char) (h : c.toLower = '.') : c = '.' :=
  toLower_eq_nonletter c '.' (by decide) h

/-! ## Helper lemmas: delimiter wrapping -/

theorem comma_split_inj : ∀ (xs ys t t' : List Char), ',' ∉ xs → ',' ∉ ys →
    xs ++ ',' :: t = ys ++ ',' :: t' → xs = ys := by
  intro xs
  induction xs with
  | nil =>
    intro ys t t' _ hy h
    cases ys with
    | nil => rfl
    | cons b ys =>
      exfalso
      rw [List.nil_append, List.cons_append] at h
      injection h with h1 h2
      exact hy (by rw [h1]; exact List.mem_cons_self b ys)
  | cons a as ih =>
    intro ys t t' hx hy h
    cases ys with
    | nil =>
      exfalso
      rw [List.cons_append, List.nil_append] at h
      injection h with h1 h2
      exact hx (by rw [← h1]; exact List.mem_cons_self a as)
    | cons b ys =>
      rw [List.cons_append, List.cons_append] at h
      injection h with h1 h2
      rw [h1, ih ys t t' (fun hm => hx (List.mem_cons_of_mem a hm))
        (fun hm => hy (List.mem_cons_of_mem b hm)) h2]

theorem count_comma_wrap (l : List Char) (h : ',' ∉ l) :
    (wrapList l).count ',' = 2 := by
  have h0 : l.count ',' = 0 := List.count_eq_zero.mpr h
  simp [wrapList, List.count_cons, List.count_append, h0]

/-- Whole-token containment against a comma-wrapped value is equality, for
comma-free operands. -/
theorem wrap_infix_wrap (xs ys : List Char) (hx : ',' ∉ xs) (hy : ',' ∉ ys) :
    wrapList xs <:+: wrapList ys ↔ xs = ys := by
  constructor
  · rintro ⟨s, t, h⟩
    have hcnt := congrArg (List.count ',') h
    simp only [List.count_append, count_comma_wrap xs hx,
      count_comma_wrap ys hy] at hcnt
    have hs : (',' : Char) ∉ s := by
      rw [← List.count_eq_zero (a := ',')]
      omega
    cases s with
    | cons c s =>
      exfalso
      rw [wrapList, wrapList] at h
      rw [List.cons_append, List.cons_append] at h
      injection h with h1 h2
      exact hs (by rw [h1]; exact List.mem_cons_self _ _)
    | nil =>
      rw [List.nil_append, wrapList, wrapList, List.cons_append] at h
      injection h with h1 h2
      rw [List.append_assoc, List.singleton_append] at h2
      have h3 : xs ++ ',' :: t = ys ++ ',' :: ([] : List Char) := by
        simpa using h2
      exact comma_split_inj xs ys t [] hx hy h3
  · rintro rfl
    exact List.infix_refl _

theorem infix_cons_comma (xs ys : List Char) (hx : ',' ∉ xs) (hne : xs ≠ [])
    (h : xs <:+: ',' :: ys) : xs <:+: ys := by
  rcases h with ⟨s, t, h⟩
  cases s with
  | nil =>
    exfalso
    cases xs with
    | nil => exact hne rfl
    | cons a as =>
      rw [List.nil_append, List.cons_append] at h
      injection h with h1 h2
      exact hx (by rw [h1]; exact List.mem_cons_self _ _)
  | cons c s =>
    rw [List.cons_append] at h
    injection h with h1 h2
    exact ⟨s, t, h2⟩

theorem infix_concat_comma (xs ys : List Char) (hx : ',' ∉ xs) (hne : xs ≠ [])
    (h : xs <:+: ys ++ [',']) : xs <:+: ys := by
  rcases h with ⟨s, t, h⟩
  rcases List.eq_nil_or_concat t with rfl | ⟨t0, a, rfl⟩
  · exfalso
    rcases List.eq_nil_or_concat xs with rfl | ⟨x0, xl, rfl⟩
    · exact hne rfl
    · rw [List.append_nil, List.concat_eq_append, ← List.append_assoc] at h
      have h4 := (List.append_inj' h (by simp)).2
      injection h4 with h5
      exact hx (by rw [List.concat_eq_append, h5]; simp)
  · rw [List.concat_eq_append, ← List.append_assoc] at h
    have h4 := (List.append_inj' h (by simp)).1
    exact ⟨s, t0, h4⟩

/-- A comma-free pattern occurs in a comma-wrapped value iff it occurs in
the value itself. -/
theorem substr_wrap (xs ys : List Char) (hx : ',' ∉ xs) :
    xs <:+: wrapList ys ↔ xs <:+: ys := by
  cases hxe : xs with
  | nil => simp
  | cons a as =>
    rw [← hxe]
    have hne : xs ≠ [] := by rw [hxe]; simp
    constructor
    · intro h
      rw [wrapList] at h
      exact infix_concat_comma xs ys hx hne (infix_cons_comma xs _ hx hne h)
    · intro h
      refine h.trans ⟨[','], [','], ?_⟩
      simp [wrapList]

/-! ## Helper lemmas: splitting -/

theorem splitOnAux_no_sep (sep : Char) : ∀ (l acc : List Char), sep ∉ l →
    splitOnAux sep l acc = [acc.reverse ++ l] := by
  intro l
  induction l with
  | nil => intro acc _; simp [splitOnAux]
  | cons c cs ih =>
    intro acc h
    have hc : ¬(c = sep) := fun e => h (by rw [← e]; exact List.mem_cons_self c cs)
    rw [splitOnAux, if_neg hc, ih (c :: acc) (fun hm => h (List.mem_cons_of_mem c hm))]
    simp

theorem splitOnAux_sep_append (sep : Char) : ∀ (A R acc : List Char), sep ∉ A →
    splitOnAux sep (A ++ sep :: R) acc =
      (acc.reverse ++ A) :: splitOnAux sep R [] := by
  intro A
  induction A with
  | nil => intro R acc _; simp [splitOnAux]
  | cons a A ih =>
    intro R acc h
    have ha : ¬(a = sep) := fun e => h (by rw [← e]; exact List.mem_cons_self a A)
    rw [List.cons_append, splitOnAux, if_neg ha,
      ih R (a :: acc) (fun hm => h (List.mem_cons_of_mem a hm))]
    simp

theorem mem_splitOnAux (sep : Char) : ∀ (l acc seg : List Char),
    seg ∈ splitOnAux sep l acc → ∀ c ∈ seg, c ∈ l ∨ c ∈ acc := by
  intro l
  induction l with
  | nil =>
    intro acc seg hseg c hc
    rw [splitOnAux] at hseg
    simp only [List.mem_singleton] at hseg
    subst hseg
    exact Or.inr (List.mem_reverse.mp hc)
  | cons d cs ih =>
    intro acc seg hseg c hc
    rw [splitOnAux] at hseg
    split at hseg
    · rcases List.mem_cons.mp hseg with rfl | hseg'
      · exact Or.inr (List.mem_reverse.mp hc)
      · rcases ih [] seg hseg' c hc with h | h
        · exact Or.inl (List.mem_cons_of_mem d h)
        · simp at h
    · rcases ih (d :: acc) seg hseg c hc with h | h
      · exact Or.inl (List.mem_cons_of_mem d h)
      · rcases List.mem_cons.mp h with rfl | h'
        · exact Or.inl (List.mem_cons_self _ _)
        · exact Or.inr h'

theorem splitOnAux_ne_nil (sep : Char) : ∀ (l acc : List Char),
    splitOnAux sep l acc ≠ [] := by
  intro l
  induction l with
  | nil => intro acc; simp [splitOnAux]
  | cons d cs ih =>
    intro acc
    rw [splitOnAux]
    split
    · simp
    · exact ih (d :: acc)

theorem mem_splitWsAux : ∀ (l acc tok : List Char), tok ∈ splitWsAux l acc →
    ∀ c ∈ tok, c ∈ l ∨ c ∈ acc := by
  intro l
  induction l with
  | nil =>
    intro acc tok htok c hc
    rw [splitWsAux] at htok
    split at htok
    · simp at htok
    · simp only [List.mem_singleton] at htok
      subst htok
      exact Or.inr (List.mem_reverse.mp hc)
  | cons d cs ih =>
    intro acc tok htok c hc
    rw [splitWsAux] at htok
    split at htok
    · rcases List.mem_append.mp htok with h | h
      · split at h
        · simp at h
        · simp only [List.mem_singleton] at h
          subst h
          exact Or.inr (List.mem_reverse.mp hc)
      · rcases ih [] tok h c hc with h' | h'
        · exact Or.inl (List.mem_cons_of_mem d h')
        · simp at h'
    · rcases ih (d :: acc) tok htok c hc with h' | h'
      · exact Or.inl (List.mem_cons_of_mem d h')
      · rcases List.mem_cons.mp h' with rfl | h''
        · exact Or.inl (List.mem_cons_self _ _)
        · exact Or.inr h''

theorem splitWsAux_no_space : ∀ (l acc : List Char),
    (∀ c ∈ acc, ¬(pyIsSpace c = true)) →
    ∀ tok ∈ splitWsAux l acc, ∀ c ∈ tok, ¬(pyIsSpace c = true) := by
  intro l
  induction l with
  | nil =>
    intro acc hacc tok htok c hc
    rw [splitWsAux] at htok
    split at htok
    · simp at htok
    · simp only [List.mem_singleton] at htok
      subst htok
      exact hacc c (List.mem_reverse.mp hc)
  | cons d cs ih =>
    intro acc hacc tok htok c hc
    rw [splitWsAux] at htok
    split at htok
    · rcases List.mem_append.mp htok with h | h
      · split at h
        · simp at h
        · simp only [List.mem_singleton] at h
          subst h
          exact hacc c (List.mem_reverse.mp hc)
      · exact ih [] (by simp) tok h c hc
    · rename_i hd
      refine ih (d :: acc) ?_ tok htok c hc
      intro e he
      rcases List.mem_cons.mp he with rfl | he'
      · exact hd
      · exact hacc e he'

theorem splitWsAux_all_space : ∀ (l acc : List Char), (∀ c ∈ l, pyIsSpace c = true) →
    splitWsAux l acc = if acc.isEmpty then [] else [acc.reverse] := by
  intro l
  induction l with
  | nil => intro acc _; rw [splitWsAux]
  | cons d cs ih =>
    intro acc h
    rw [splitWsAux, if_pos (h d (List.mem_cons_self d cs)),
      ih [] (fun c hc => h c (List.mem_cons_of_mem d hc))]
    simp

theorem dropWhile_eq_self_of_all (p : Char → Bool) (l : List Char)
    (h : ∀ c ∈ l, ¬(p c = true)) : l.dropWhile p = l := by
  cases l with
  | nil => rfl
  | cons c cs =>
    rw [List.dropWhile_cons, if_neg (h c (List.mem_cons_self c cs))]

theorem pyStripP_eq_self (p : Char → Bool) (l : List Char)
    (h : ∀ c ∈ l, ¬(p c = true)) : pyStripP p l = l := by
  rw [pyStripP, dropWhile_eq_self_of_all p l h,
    dropWhile_eq_self_of_all p l.reverse (fun c hc => h c (List.mem_reverse.mp hc)),
    List.reverse_reverse]

theorem mem_pyStripP (p : Char → Bool) (l : List Char) (c : Char)
    (h : c ∈ pyStripP p l) : c ∈ l := by
  rw [pyStripP] at h
  have h1 := List.mem_reverse.mp h
  have h2 := (List.dropWhile_sublist (l := (l.dropWhile p).reverse) p).mem h1
  have h3 := List.mem_reverse.mp h2
  exact (List.dropWhile_sublist (l := l) p).mem h3

/-! ## Helper lemmas: the intersection fold -/

theorem foldl_step_none (df : List DepRow) (vc : List ColsRow) :
    ∀ ts : List (List Char), ts.foldl (stepTerm df vc) none = none := by
  intro ts
  induction ts with
  | nil => rfl
  | cons t ts ih =>
    rw [List.foldl_cons]
    have h : stepTerm df vc none t = none := by
      cases h : evalTerm df vc t <;> simp [stepTerm, h]
    rw [h, ih]

theorem foldl_step_mem (df : List DepRow) (vc : List ColsRow) :
    ∀ (ts : List (List Char)) (A M : List String),
    ts.foldl (stepTerm df vc) (some A) = some M →
    ∀ v, (v ∈ M ↔ v ∈ A ∧ ∀ t ∈ ts, ∃ S, evalTerm df vc t = some S ∧ v ∈ S) := by
  intro ts
  induction ts with
  | nil =>
    intro A M h v
    rw [List.foldl_nil] at h
    injection h with h
    subst h
    simp
  | cons t ts ih =>
    intro A M h v
    rw [List.foldl_cons] at h
    cases he : evalTerm df vc t with
    | none =>
      exfalso
      have hst : stepTerm df vc (some A) t = none := by simp [stepTerm, he]
      rw [hst, foldl_step_none] at h
      exact Option.noConfusion h
    | some S =>
      have hst : stepTerm df vc (some A) t =
          some (A.filter (fun v => S.contains v)) := by simp [stepTerm, he]
      rw [hst] at h
      rw [ih _ M h v, List.mem_filter]
      constructor
      · rintro ⟨⟨hA, hS⟩, hrest⟩
        refine ⟨hA, ?_⟩
        intro t' ht'
        rcases List.mem_cons.mp ht' with rfl | ht''
        · exact ⟨S, he, by simpa [List.contains] using hS⟩
        · exact hrest t' ht''
      · rintro ⟨hA, hall⟩
        have h1 := hall t (List.mem_cons_self t ts)
        rcases h1 with ⟨S', hS', hv⟩
        rw [he] at hS'
        injection hS' with hS'
        subst hS'
        exact ⟨⟨hA, by simpa [List.contains] using hv⟩,
          fun t' ht' => hall t' (List.mem_cons_of_mem t ht')⟩

theorem foldl_step_isSome (df : List DepRow) (vc : List ColsRow) :
    ∀ (ts : List (List Char)) (A : List String),
    (∀ t ∈ ts, (evalTerm df vc t).isSome) →
    (ts.foldl (stepTerm df vc) (some A)).isSome := by
  intro ts
  induction ts with
  | nil => intro A _; simp
  | cons t ts ih =>
    intro A h
    rw [List.foldl_cons]
    rcases Option.isSome_iff_exists.mp (h t (List.mem_cons_self t ts)) with ⟨S, hS⟩
    have hst : stepTerm df vc (some A) t =
        some (A.filter (fun v => S.contains v)) := by simp [stepTerm, hS]
    rw [hst]
    exact ih _ (fun t' ht' => h t' (List.mem_cons_of_mem t ht'))

theorem stepTerm_comm (df : List DepRow) (vc : List ColsRow)
    (acc : Option (List String)) (a b : List Char) :
    stepTerm df vc (stepTerm df vc acc a) b =
      stepTerm df vc (stepTerm df vc acc b) a := by
  cases acc with
  | none =>
    have hn : ∀ t, stepTerm df vc none t = none := by
      intro t; cases h : evalTerm df vc t <;> simp [stepTerm, h]
    simp [hn]
  | some s =>
    cases ha : evalTerm df vc a with
    | none => cases hb : evalTerm df vc b <;> simp [stepTerm, ha, hb]
    | some A =>
      cases hb : evalTerm df vc b with
      | none => simp [stepTerm, ha, hb]
      | some B =>
        simp only [stepTerm, ha, hb]
        rw [List.filter_filter, List.filter_filter]
        congr 1
        apply List.filter_congr
        intro x _
        rw [Bool.and_comm]

theorem foldl_step_perm (df : List DepRow) (vc : List ColsRow)
    {ts1 ts2 : List (List Char)} (p : ts1.Perm ts2) :
    ∀ acc, ts1.foldl (stepTerm df vc) acc = ts2.foldl (stepTerm df vc) acc := by
  induction p with
  | nil => intro acc; rfl
  | cons x _ ih =>
    intro acc
    rw [List.foldl_cons, List.foldl_cons, ih]
  | swap x y l =>
    intro acc
    rw [List.foldl_cons, List.foldl_cons, List.foldl_cons, List.foldl_cons,
      stepTerm_comm]
  | trans _ _ ih1 ih2 =>
    intro acc
    rw [ih1, ih2]

/-! ## Helper lemmas: sorting -/

theorem insertSorted_perm (s : String) : ∀ l, (insertSorted s l).Perm (s :: l) := by
  intro l
  induction l with
  | nil => exact List.Perm.refl _
  | cons x xs ih =>
    rw [insertSorted]
    split
    · exact (ih.cons x).trans (List.Perm.swap s x xs)
    · exact List.Perm.refl _

theorem sortStrings_perm : ∀ l : List String, (sortStrings l).Perm l := by
  intro l
  induction l with
  | nil => exact List.Perm.refl _
  | cons x xs ih =>
    rw [sortStrings, List.foldr_cons]
    exact ((insertSorted_perm x (xs.foldr insertSorted [])).trans (ih.cons x))

theorem insertSorted_sorted (s : String) : ∀ l, l.Sorted (· ≤ ·) →
    (insertSorted s l).Sorted (· ≤ ·) := by
  intro l
  induction l with
  | nil => intro _; simp [insertSorted]
  | cons x xs ih =>
    intro h
    rw [List.sorted_cons] at h
    rw [insertSorted]
    split
    · rename_i hx
      rw [List.sorted_cons]
      refine ⟨?_, ih h.2⟩
      intro y hy
      rcases List.mem_cons.mp ((insertSorted_perm s xs).mem_iff.mp hy) with rfl | hy'
      · exact le_of_lt hx
      · exact h.1 y hy'
    · rename_i hx
      rw [List.sorted_cons]
      refine ⟨?_, List.sorted_cons.mpr h⟩
      intro y hy
      rcases List.mem_cons.mp hy with rfl | hy'
      · exact not_lt.mp hx
      · exact (not_lt.mp hx).trans (h.1 y hy')

theorem sortStrings_sorted : ∀ l : List String, (sortStrings l).Sorted (· ≤ ·) := by
  intro l
  induction l with
  | nil => simp [sortStrings]
  | cons x xs ih =>
    rw [sortStrings, List.foldr_cons]
    exact insertSorted_sorted x _ ih

/-! ## Helper lemmas: miscellaneous -/

theorem wrapDf_viewNames (df : List DepRow) :
    (wrapDf df).map (fun r => r.ViewName) = df.map (fun r => r.ViewName) := by
  simp [wrapDf, wrapRow]

theorem wrapList_ne (l : List Char) : wrapList l ≠ l := by
  intro h
  have := congrArg List.length h
  simp [wrapList] at this
  omega

theorem wrapDf_eq_iff (df : List DepRow) : wrapDf df = df ↔ df = [] := by
  constructor
  · intro h
    cases df with
    | nil => rfl
    | cons r rs =>
      exfalso
      rw [wrapDf, List.map_cons] at h
      injection h with h1 h2
      have h3 := congrArg (fun x => x.ReferencedColumns.data) h1
      simp only [wrapRow] at h3
      exact wrapList_ne _ h3
  · rintro rfl
    rfl

theorem stripComma_wrap (l : List Char)
    (h1 : l.head? ≠ some ',') (h2 : l.getLast? ≠ some ',') :
    pyStripComma (wrapList l) = l := by
  cases l with
  | nil => rfl
  | cons c l' =>
    have hc : ¬(c = ',') := by
      intro e
      exact h1 (by rw [e]; rfl)
    rw [pyStripComma, pyStripP, wrapList]
    have hstep : (',' :: (c :: l' ++ [','])).dropWhile (fun c => c = ',') =
        c :: l' ++ [','] := by
      rw [List.dropWhile_cons, if_pos (by simp), List.cons_append,
        List.dropWhile_cons, if_neg (by simpa using hc)]
    rw [hstep]
    have hrev : (c :: l' ++ [',']).reverse = ',' :: (c :: l').reverse := by
      rw [List.reverse_append]
      rfl
    rw [hrev]
    have hhead : ((c :: l').reverse).head? ≠ some ',' := by
      rw [List.head?_reverse]
      exact h2
    have hstep2 : (',' :: (c :: l').reverse).dropWhile (fun c => c = ',') =
        (c :: l').reverse := by
      rw [List.dropWhile_cons, if_pos (by simp)]
      cases hr : (c :: l').reverse with
      | nil => exact absurd hr (by simp)
      | cons e rest =>
        have he : ¬(e = ',') := by
          intro hec
          rw [hr, hec] at hhead
          exact hhead rfl
        rw [List.dropWhile_cons, if_neg (by simpa using he)]
    rw [hstep2, List.reverse_reverse]

/-! ## Helper lemmas: provenance of pattern characters -/

theorem mem_tokenize (q : String) (tok : List Char) (htok : tok ∈ tokenize q)
    (c : Char) (hc : c ∈ tok) : c ∈ q.data ∨ c = ' ' := by
  rw [tokenize] at htok
  rcases List.mem_map.mp htok with ⟨tok0, htok0, rfl⟩
  have hc0 := mem_pyStripP _ _ _ hc
  rw [splitWs] at htok0
  rcases mem_splitWsAux _ [] tok0 htok0 c hc0 with h | h
  · rcases List.mem_map.mp h with ⟨d, hd, he⟩
    by_cases hdc : d = ','
    · right
      rw [hdc, if_pos rfl] at he
      exact he.symm
    · left
      rw [if_neg hdc] at he
      exact he ▸ hd
  · simp at h

theorem mem_termTableRaw (t : List Char) (c : Char)
    (hc : c ∈ termTableRaw t) : c ∈ t := by
  rw [termTableRaw] at hc
  cases hsegs : termSegs t with
  | nil => exact absurd hsegs (by rw [termSegs, splitOnChar]; exact splitOnAux_ne_nil '.' t [])
  | cons a rest =>
    rw [hsegs] at hc
    have ha : a ∈ splitOnAux '.' t [] := by
      rw [termSegs, splitOnChar] at hsegs
      rw [hsegs]
      exact List.mem_cons_self a rest
    rcases mem_splitOnAux '.' t [] a ha c hc with h | h
    · exact h
    · simp at h

theorem mem_termColumnRaw (t : List Char) (c : Char)
    (hc : c ∈ termColumnRaw t) : c ∈ t := by
  rw [termColumnRaw] at hc
  cases hsegs : termSegs t with
  | nil => rw [hsegs] at hc; simp at hc
  | cons a rest =>
    cases rest with
    | nil => rw [hsegs] at hc; simp at hc
    | cons b rest' =>
      rw [hsegs] at hc
      have hb : b ∈ splitOnAux '.' t [] := by
        rw [termSegs, splitOnChar] at hsegs
        rw [hsegs]
        exact List.mem_cons_of_mem a (List.mem_cons_self b rest')
      rcases mem_splitOnAux '.' t [] b hb c hc with h | h
      · exact h
      · simp at h

theorem safe_pyLowerStrip (x : List Char) (hx : ∀ c ∈ x, c ∉ regexSpecials) :
    ∀ c ∈ pyLower (pyStrip x), c ∉ regexSpecials := by
  intro c hc hmem
  rcases List.mem_map.mp hc with ⟨d, hd, rfl⟩
  exact hx d (mem_pyStripP _ _ _ hd) (toLower_mem_specials d hmem)

theorem safe_wrapList (x : List Char) (hx : ∀ c ∈ x, c ∉ regexSpecials) :
    ∀ c ∈ wrapList x, c ∉ regexSpecials := by
  intro c hc
  rw [wrapList] at hc
  rcases List.mem_cons.mp hc with rfl | hc'
  · decide
  · rcases List.mem_append.mp hc' with h | h
    · exact hx c h
    · have : c = ',' := by simpa using h
      subst this
      decide

theorem safe_tablePat (x : List Char) (hx : ∀ c ∈ x, c ∉ regexSpecials) :
    ∀ c ∈ tablePat x, c ∉ regexSpecials := by
  intro c hc
  cases x with
  | nil => exact safe_wrapList [] hx c hc
  | cons a rest =>
    rw [tablePat] at hc
    by_cases ha : a = '%'
    · rw [if_pos ha] at hc
      exact hx c (List.mem_cons_of_mem _ hc)
    · rw [if_neg ha] at hc
      exact safe_wrapList _ hx c hc

theorem safe_colPat (x : List Char) (hx : ∀ c ∈ x, c ∉ regexSpecials) :
    ∀ c ∈ colPat x, c ∉ regexSpecials := by
  intro c hc
  cases x with
  | nil => rw [colPat] at hc; simp at hc
  | cons a rest =>
    rw [colPat] at hc
    by_cases ha : a = '%'
    · rw [if_pos ha] at hc
      exact hx c (List.mem_cons_of_mem _ hc)
    · rw [if_neg ha] at hc
      exact safe_wrapList _ hx c hc

/-! ## Helper lemmas: reducing the term dispatch -/

theorem evalTerm_eq_evalTable (df : List DepRow) (vc : List ColsRow)
    (t : List Char) (h : t.head? ≠ some '>') :
    evalTerm df vc t = evalTable t df := by
  cases t with
  | nil => rfl
  | cons a rest =>
    rw [evalTerm, if_neg (by simpa using h)]

theorem tablePat_eq_wrap (x : List Char) (h : x.head? ≠ some '%') :
    tablePat x = wrapList x := by
  cases x with
  | nil => rfl
  | cons a rest =>
    rw [tablePat, if_neg (by simpa using h)]

theorem pyLower_wrapList (l : List Char) :
    pyLower (wrapList l) = wrapList (pyLower l) := by
  have hc : Char.toLower ',' = ',' := by decide
  simp [pyLower, wrapList, hc]

theorem comma_not_mem_pyLower (l : List Char) (h : ',' ∉ l) :
    ',' ∉ pyLower l := by
  intro hm
  rcases List.mem_map.mp hm with ⟨d, hd, he⟩
  exact h (toLower_eq_comma d he ▸ hd)

theorem safe_lits_pyLower (x : List Char)
    (hs : ∀ c ∈ x, c ∉ regexSpecials) (hd : '.' ∉ x) :
    ∀ c ∈ pyLower x, c ∉ regexSpecials ∧ c ≠ '.' := by
  intro c hc
  rcases List.mem_map.mp hc with ⟨d, hdm, rfl⟩
  refine ⟨fun hmem => hs d hdm (toLower_mem_specials d hmem), fun hdot => ?_⟩
  exact hd (toLower_eq_dot d hdot ▸ hdm)

theorem safe_lits_wrapList (x : List Char)
    (h : ∀ c ∈ x, c ∉ regexSpecials ∧ c ≠ '.') :
    ∀ c ∈ wrapList x, c ∉ regexSpecials ∧ c ≠ '.' := by
  intro c hc
  rw [wrapList] at hc
  rcases List.mem_cons.mp hc with rfl | hc'
  · exact ⟨by decide, by decide⟩
  · rcases List.mem_append.mp hc' with hm | hm
    · exact h c hm
    · have : c = ',' := by simpa using hm
      subst this
      exact ⟨by decide, by decide⟩

theorem evalTable_isSome (df : List DepRow) (t : List Char)
    (ht : ∀ c ∈ t, c ∉ regexSpecials) : (evalTable t df).isSome := by
  have htab : ∀ c ∈ tablePat (pyLower (pyStrip (termTableRaw t))), c ∉ regexSpecials :=
    safe_tablePat _ (safe_pyLowerStrip _ (fun c hc => ht c (mem_termTableRaw t c hc)))
  have hcol : ∀ c ∈ colPat (pyLower (pyStrip (termColumnRaw t))), c ∉ regexSpecials :=
    safe_colPat _ (safe_pyLowerStrip _ (fun c hc => ht c (mem_termColumnRaw t c hc)))
  rcases Option.isSome_iff_exists.mp (compile_safe _ htab) with ⟨tp, htp⟩
  rcases Option.isSome_iff_exists.mp (compile_safe _ hcol) with ⟨cp, hcp⟩
  rw [evalTable]
  simp only [htp, hcp]
  rfl

theorem evalTerm_isSome (df : List DepRow) (vc : List ColsRow) (t : List Char)
    (ht : ∀ c ∈ t, c ∉ regexSpecials) : (evalTerm df vc t).isSome := by
  cases t with
  | nil => exact evalTable_isSome df [] ht
  | cons a rest =>
    rw [evalTerm]
    by_cases ha : a = '>'
    · rw [if_pos ha, evalOutput]
      have hsafe : ∀ c ∈ pyLower (pyStrip rest), c ∉ regexSpecials :=
        safe_pyLowerStrip rest (fun c hc => ht c (List.mem_cons_of_mem a hc))
      rcases Option.isSome_iff_exists.mp (compile_safe _ hsafe) with ⟨p, hp⟩
      rw [hp]
      rfl
    · rw [if_neg ha]
      exact evalTable_isSome df (a :: rest) ht

/-! ## Claim C1 -/

/-- C1, counterexample: the claim says the engine leaves all three input
relations unchanged, but line 80 mutates the dependency relation in place:
after running a query, the caller's `ReferencedColumns` values are
comma-wrapped (`"id"` has become `",id,"`), so the final state of the
dependency relation differs from the input. -/
theorem C1_counterexample :
    (search_view_dependencies [⟨"V1", "T", "id"⟩] "x" [] []).2 ≠
      ([⟨"V1", "T", "id"⟩] : List DepRow) := by
  decide

/-- C1, amended: the engine is not side-effect-free over the dependency
relation — line 80 rewrites every `ReferencedColumns` value to
`',' + value + ','`, so the relation is left unchanged only when it is
empty.  The output-column relation and the code list are not mutated (the
model reflects this by construction: the engine only reads them), and the
result is a function of the query and the initial relation states. -/
theorem C1_mutation (df : List DepRow) (q : String) (vc : List ColsRow)
    (code : List (String × String)) :
    (search_view_dependencies df q vc code).2 = wrapDf df ∧
      ((search_view_dependencies df q vc code).2 = df ↔ df = []) := by
  have h2 : (search_view_dependencies df q vc code).2 = wrapDf df := by
    simp only [search_view_dependencies]
    cases h : matchedViews (wrapDf df) vc (tokenize q) <;> simp
  exact ⟨h2, by rw [h2]; exact wrapDf_eq_iff df⟩

/-! ## Claim C2 -/

/-- C2, counterexample: the claim says everything after the first `.` of a
token — further dots included — becomes the column part verbatim, so for
the token `"a.b.c"` the column part would be `"b.c"`.  The code
(`parts = term.split('.')`, `column = parts[1]`) instead takes only the
text between the first and second dot, `"b"`, discarding `".c"`; on a
dependency row whose column list is exactly `"b.c"` the query `"a.b.c"`
therefore matches nothing, while the claim predicts a match of `V1`. -/
theorem C2_counterexample :
    termColumnRaw "a.b.c".data = "b".data ∧ "b".data ≠ "b.c".data ∧
      (search_view_dependencies [⟨"V1", "a", "b.c"⟩] "a.b.c" [] []).1 =
        some [] := by
  refine ⟨by decide, by decide, by decide⟩

/-- C2, amended: a token is split on every `.`; the table part is the text
before the first `.` and the column part is the text between the first and
the second `.` (or to the end of the token if there is no second `.`) —
any text after a second `.` is discarded, not swallowed into the column
part. -/
theorem C2_split (A B C : List Char) (hA : '.' ∉ A) (hB : '.' ∉ B) :
    (termTableRaw (A ++ '.' :: B) = A ∧ termColumnRaw (A ++ '.' :: B) = B) ∧
      (termTableRaw (A ++ '.' :: (B ++ '.' :: C)) = A ∧
        termColumnRaw (A ++ '.' :: (B ++ '.' :: C)) = B) := by
  have hsegs1 : termSegs (A ++ '.' :: B) = [A, B] := by
    rw [termSegs, splitOnChar, splitOnAux_sep_append '.' A B [] hA,
      splitOnAux_no_sep '.' B [] hB]
    simp
  have hsegs2 : termSegs (A ++ '.' :: (B ++ '.' :: C)) =
      A :: B :: splitOnAux '.' C [] := by
    rw [termSegs, splitOnChar, splitOnAux_sep_append '.' A _ [] hA,
      splitOnAux_sep_append '.' B C [] hB]
    simp
  refine ⟨⟨?_, ?_⟩, ?_, ?_⟩ <;>
    simp [termTableRaw, termColumnRaw, hsegs1, hsegs2]

/-- C2, witness for the amended claim at the token `"a.b.c"`. -/
theorem C2_split_witness :
    termTableRaw ("a".data ++ '.' :: ("b".data ++ '.' :: "c".data)) = "a".data ∧
      termColumnRaw ("a".data ++ '.' :: ("b".data ++ '.' :: "c".data)) = "b".data :=
  (C2_split "a".data "b".data "c".data (by decide) (by decide)).2

/-! ## Claim C3 -/

/-- C3, counterexample: the claim says the engine never raises for query
content, but the query `"("` makes `str.contains` compile the invalid
regular expression `",(,"`, which raises `re.error` (modelled as `none`). -/
theorem C3_counterexample :
    (search_view_dependencies [⟨"V", "t", "id"⟩] "(" [] []).1 = none := by
  decide

/-- C3, amended: the engine never raises for a query free of regex
metacharacters (`\ ( ) [ ] { } * + ? | ^ $`); queries containing them can
make the regex compilation inside `str.contains` raise.  (`.` and `%` and
`>` are processed without error.) -/
theorem C3_no_throw (df : List DepRow) (q : String) (vc : List ColsRow)
    (code : List (String × String))
    (hq : ∀ c ∈ q.data, c ∉ regexSpecials) :
    ((search_view_dependencies df q vc code).1).isSome := by
  have hterm : ∀ t ∈ tokenize q, (evalTerm (wrapDf df) vc t).isSome := by
    intro t ht
    refine evalTerm_isSome _ _ t ?_
    intro c hc
    rcases mem_tokenize q t ht c hc with h | rfl
    · exact hq c h
    · decide
  have hfold := foldl_step_isSome (wrapDf df) vc (tokenize q)
    (((wrapDf df).map (fun r => r.ViewName)).dedup) hterm
  have hmv : (matchedViews (wrapDf df) vc (tokenize q)).isSome := by
    rw [matchedViews]
    exact hfold
  rcases Option.isSome_iff_exists.mp hmv with ⟨m, hm⟩
  simp only [search_view_dependencies, hm]
  rfl

/-- C3, witness: a query using `.`, `%` and `>` terms is processed without
raising. -/
theorem C3_no_throw_witness :
    ((search_view_dependencies [⟨"V", "t", "id"⟩] "t.id %oo >name" [] []).1).isSome :=
  C3_no_throw [⟨"V", "t", "id"⟩] "t.id %oo >name" [] [] (by decide)

/-! ## Claim C4 -/

/-- C4, counterexample: the claim says the `>`-predicate matches exactly
the views whose lowercased `OutputColumns` contains the needle as a
literal substring.  The code passes the needle to `str.contains` as a
regular expression, so the needle `"."` matches the view `V3` with
output columns `"xyz"` even though `"xyz"` does not contain a literal
`"."`. -/
theorem C4_counterexample :
    evalOutput ['.'] [⟨"V3", "xyz"⟩] = some ["V3"] ∧
      ¬(pyLower ['.'] <:+: pyLower "xyz".data) := by
  refine ⟨by decide, by decide⟩

/-- C4, amended: for needles containing no regex metacharacter and no `.`,
the `>`-predicate returns exactly the views with an output-columns row
whose `OutputColumns` contains the needle as a case-insensitive literal
substring; in particular the empty needle matches every view that has an
output-columns row (the empty list is an infix of everything). -/
theorem C4_output_substring (needle : List Char) (vc : List ColsRow)
    (hn : ∀ c ∈ needle, c ∉ regexSpecials ∧ c ≠ '.') :
    ∃ S, evalOutput needle vc = some S ∧
      ∀ v, (v ∈ S ↔ ∃ r ∈ vc, r.ViewName = v ∧
        pyLower needle <:+: pyLower r.OutputColumns.data) := by
  rw [evalOutput, compile_lits needle hn]
  refine ⟨_, rfl, ?_⟩
  intro v
  simp only [List.mem_map, List.mem_filter]
  constructor
  · rintro ⟨r, ⟨hr, hs⟩, rfl⟩
    exact ⟨r, hr, rfl, (searchFrom_lits needle r.OutputColumns.data).mp hs⟩
  · rintro ⟨r, hr, rfl, hsub⟩
    exact ⟨r, ⟨hr, (searchFrom_lits needle r.OutputColumns.data).mpr hsub⟩, rfl⟩

/-- C4, witness at the needle `"name"` against the spec's example
output-columns row. -/
theorem C4_output_substring_witness :
    ∃ S, evalOutput "name".data [⟨"V3", "CustomerName,Total"⟩] = some S ∧
      ∀ v, (v ∈ S ↔ ∃ r ∈ [(⟨"V3", "CustomerName,Total"⟩ : ColsRow)],
        r.ViewName = v ∧ pyLower "name".data <:+: pyLower r.OutputColumns.data) :=
  C4_output_substring "name".data [⟨"V3", "CustomerName,Total"⟩] (by decide)

/-! ## Claim C5 -/

/-- C5, counterexample: the claim says a trailing-dot term parses to
`Exact("")`, matching only rows whose column sequence contains the empty
string.  In the code an empty column part is left as the empty pattern
(line 104 wraps only nonempty columns), and `str.contains` with an empty
pattern matches every row: the query `"booking."` matches `V` although
`V`'s column sequence `["id"]` has no empty-string element. -/
theorem C5_counterexample :
    (search_view_dependencies [⟨"V", "booking", "id"⟩] "booking." [] []).1 =
      some [⟨"V", [⟨"booking", "id"⟩], "", ""⟩] ∧
      ([] : List Char) ∉ splitOnChar ',' "id".data := by
  refine ⟨by decide, by decide⟩

/-- C5, amended: a term with a trailing `.` and empty column part leaves
the column pattern empty, which matches every dependency row — the term
behaves exactly like the same term without the trailing dot (column
constraint `Any`), not like an exact match of the empty string. -/
theorem C5_trailing_dot (t : List Char) (df : List DepRow) (vc : List ColsRow)
    (hdot : '.' ∉ t) (hgt : t.head? ≠ some '>') :
    evalTerm df vc (t ++ ['.']) = evalTerm df vc t := by
  have hgt2 : (t ++ ['.']).head? ≠ some '>' := by
    cases t with
    | nil => simp
    | cons a t' => simpa using hgt
  rw [evalTerm_eq_evalTable df vc _ hgt2, evalTerm_eq_evalTable df vc t hgt]
  have hsegs : termSegs (t ++ ['.']) = [t, []] := by
    rw [termSegs, splitOnChar]
    have he : t ++ ['.'] = t ++ '.' :: ([] : List Char) := rfl
    rw [he, splitOnAux_sep_append '.' t [] [] hdot]
    rw [splitOnAux]
    simp
  have hsegs0 : termSegs t = [t] := by
    rw [termSegs, splitOnChar, splitOnAux_no_sep '.' t [] hdot]
    simp
  simp [evalTable, termTableRaw, termColumnRaw, hsegs, hsegs0]

/-- C5, witness: `"booking."` and `"booking"` evaluate identically. -/
theorem C5_trailing_dot_witness :
    evalTerm [⟨"V", "booking", ",id,"⟩] [] ("booking".data ++ ['.']) =
      evalTerm [⟨"V", "booking", ",id,"⟩] [] "booking".data :=
  C5_trailing_dot "booking".data [⟨"V", "booking", ",id,"⟩] []
    (by decide) (by decide)

/-! ## Claim C6 -/

/-- C6, counterexample: the claim says the assembled `Dependencies` entry
reproduces exactly the set of columns of the source row.  The assembler
removes the wrapping with `strip(',')`, which strips all leading and
trailing commas: for the source column list `"id,"` (columns
`["id", ""]`) the assembled list is `"id"` (columns `["id"]`) — the
empty trailing column entry is lost. -/
theorem C6_counterexample :
    (search_view_dependencies [⟨"V", "t", "id,"⟩] "" [] []).1 =
      some [⟨"V", [⟨"t", "id"⟩], "", ""⟩] ∧
      ([] : List Char) ∈ splitOnChar ',' "id,".data ∧
      ([] : List Char) ∉ splitOnChar ',' "id".data := by
  refine ⟨by decide, by decide, by decide⟩

/-- C6, amended: provided no `ReferencedColumns` value starts or ends with
a comma (no empty leading/trailing column entry), every assembled record
reproduces, for each dependency row of its view in original order, the
table and the exact original column list — nothing duplicated or lost,
independent of the comma-wrapping used internally for matching. -/
theorem C6_roundtrip (df : List DepRow) (q : String) (vc : List ColsRow)
    (code : List (String × String)) (res : List ResultRecord)
    (hcols : ∀ r ∈ df, r.ReferencedColumns.data.head? ≠ some ',' ∧
      r.ReferencedColumns.data.getLast? ≠ some ',')
    (hres : (search_view_dependencies df q vc code).1 = some res) :
    ∀ rec ∈ res, rec.Dependencies =
      (df.filter (fun r => r.ViewName == rec.View)).map
        (fun r => { Table := r.ReferencedTable, Columns := r.ReferencedColumns }) := by
  simp only [search_view_dependencies] at hres
  cases hmv : matchedViews (wrapDf df) vc (tokenize q) with
  | none => rw [hmv] at hres; simp at hres
  | some m =>
    rw [hmv] at hres
    simp only [Option.some.injEq] at hres
    intro rec hrec
    rw [← hres] at hrec
    rcases List.mem_map.mp hrec with ⟨v, hv, rfl⟩
    show ((wrapDf df).filter (fun r => r.ViewName == v)).map
        (fun r => DepEntry.mk r.ReferencedTable
          (String.mk (pyStripComma r.ReferencedColumns.data))) =
      (df.filter (fun r => r.ViewName == v)).map
        (fun r => DepEntry.mk r.ReferencedTable r.ReferencedColumns)
    rw [wrapDf, List.filter_map, List.map_map]
    have hp : ((fun r : DepRow => r.ViewName == v) ∘ wrapRow) =
        fun r : DepRow => r.ViewName == v := rfl
    rw [hp]
    apply List.map_congr_left
    intro r hr
    have hrdf : r ∈ df := (List.mem_filter.mp hr).1
    have hs := stripComma_wrap r.ReferencedColumns.data
      (hcols r hrdf).1 (hcols r hrdf).2
    show DepEntry.mk r.ReferencedTable
        (String.mk (pyStripComma (wrapList r.ReferencedColumns.data))) =
      DepEntry.mk r.ReferencedTable r.ReferencedColumns
    rw [hs]

/-- C6, witness: round trip at a two-row view with comma-free column
ends. -/
theorem C6_roundtrip_witness :
    (⟨"V1", [⟨"Booking", "id,name"⟩, ⟨"Customer", "id"⟩], "", ""⟩ :
        ResultRecord).Dependencies =
      (([⟨"V1", "Booking", "id,name"⟩, ⟨"V1", "Customer", "id"⟩] :
          List DepRow).filter (fun r => r.ViewName ==
            (⟨"V1", [⟨"Booking", "id,name"⟩, ⟨"Customer", "id"⟩], "", ""⟩ :
              ResultRecord).View)).map
        (fun r => { Table := r.ReferencedTable, Columns := r.ReferencedColumns }) :=
  C6_roundtrip [⟨"V1", "Booking", "id,name"⟩, ⟨"V1", "Customer", "id"⟩] "" [] []
    [⟨"V1", [⟨"Booking", "id,name"⟩, ⟨"Customer", "id"⟩], "", ""⟩]
    (by decide) (by decide)
    ⟨"V1", [⟨"Booking", "id,name"⟩, ⟨"Customer", "id"⟩], "", ""⟩
    (by decide)

/-! ## Claim C7 -/

/-- C7: matching is AND across terms with any-row-per-term semantics.
(1) A view is in the matched set iff it occurs in the dependency relation
and, for every term, it is in that term's candidate set; (2) a view is in
a table-term's candidate set iff some dependency row of that view
satisfies the term's row predicate (rows need not coincide across terms);
(3) for deps `[{V1,Booking,"id,name"}, {V1,Customer,"id"}]` the query
`"Booking Customer"` matches `V1` (different rows satisfy the two terms);
(4) the query `"Booking.missingcol"` does not match `V1`. -/
theorem C7_and_semantics :
    (∀ (df : List DepRow) (vc : List ColsRow) (ts : List (List Char))
        (M : List String), matchedViews df vc ts = some M →
      ∀ v, (v ∈ M ↔ v ∈ df.map (fun r => r.ViewName) ∧
        ∀ t ∈ ts, ∃ S, evalTerm df vc t = some S ∧ v ∈ S)) ∧
    (∀ (df : List DepRow) (tp cp : List RChar) (v : String),
      (v ∈ (df.filter (rowSatB tp cp)).map (fun r => r.ViewName) ↔
        ∃ r ∈ df, r.ViewName = v ∧ rowSatB tp cp r = true)) ∧
    (search_view_dependencies
        [⟨"V1", "Booking", "id,name"⟩, ⟨"V1", "Customer", "id"⟩]
        "Booking Customer" [] []).1 =
      some [⟨"V1", [⟨"Booking", "id,name"⟩, ⟨"Customer", "id"⟩], "", ""⟩] ∧
    (search_view_dependencies
        [⟨"V1", "Booking", "id,name"⟩, ⟨"V1", "Customer", "id"⟩]
        "Booking.missingcol" [] []).1 = some [] := by
  refine ⟨?_, ?_, by decide, by decide⟩
  · intro df vc ts M h v
    rw [matchedViews] at h
    have hmem := foldl_step_mem df vc ts _ M h v
    rw [hmem, List.mem_dedup]
  · intro df tp cp v
    simp only [List.mem_map, List.mem_filter]
    constructor
    · rintro ⟨r, ⟨hr, hs⟩, rfl⟩
      exact ⟨r, hr, rfl, hs⟩
    · rintro ⟨r, hr, rfl, hs⟩
      exact ⟨r, ⟨hr, hs⟩, rfl⟩

/-- C7, witness: the membership characterisation instantiated on the
spec's two-row example with the query `"Booking Customer"`. -/
theorem C7_and_semantics_witness :
    "V1" ∈ ["V1"] ↔
      "V1" ∈ ([⟨"V1", "Booking", ",id,name,"⟩, ⟨"V1", "Customer", ",id,"⟩] :
        List DepRow).map (fun r => r.ViewName) ∧
      ∀ t ∈ ["booking".data, "customer".data],
        ∃ S, evalTerm [⟨"V1", "Booking", ",id,name,"⟩, ⟨"V1", "Customer", ",id,"⟩]
          [] t = some S ∧ "V1" ∈ S :=
  C7_and_semantics.1 [⟨"V1", "Booking", ",id,name,"⟩, ⟨"V1", "Customer", ",id,"⟩]
    [] ["booking".data, "customer".data] ["V1"] (by decide) "V1"

/-! ## Claim C8 -/

/-- C8: table matching.  (1) A table segment without `%` (comma-free,
dot-free and metacharacter-free, as produced by the tokenizer from a plain
table name) matches a dependency row iff the row's `ReferencedTable`
equals the segment up to case — the delimiter-wrapped containment is
equality for a single (comma-free) table value, which is the claim's
proviso; (2) a segment with a leading `%` matches iff the lowercased
`ReferencedTable` contains the rest as a substring; (3) on deps
`[{V2,Bookings,id}]` the query `"%ook"` matches `V2`; (4) the query
`"ook"` does not. -/
theorem C8_table_matching :
    (∀ (seg : List Char) (r : DepRow), ',' ∉ seg → '.' ∉ seg →
      (∀ c ∈ seg, c ∉ regexSpecials) → seg.head? ≠ some '%' →
      ',' ∉ r.ReferencedTable.data →
      ∃ tp, compilePattern (tablePat seg) = some tp ∧
        (searchFrom tp (wrapList r.ReferencedTable.data) = true ↔
          pyLower r.ReferencedTable.data = pyLower seg)) ∧
    (∀ (rest : List Char) (r : DepRow), ',' ∉ rest → '.' ∉ rest →
      (∀ c ∈ rest, c ∉ regexSpecials) →
      ∃ tp, compilePattern (tablePat ('%' :: rest)) = some tp ∧
        (searchFrom tp (wrapList r.ReferencedTable.data) = true ↔
          pyLower rest <:+: pyLower r.ReferencedTable.data)) ∧
    (search_view_dependencies [⟨"V2", "Bookings", "id"⟩] "%ook" [] []).1 =
      some [⟨"V2", [⟨"Bookings", "id"⟩], "", ""⟩] ∧
    (search_view_dependencies [⟨"V2", "Bookings", "id"⟩] "ook" [] []).1 =
      some [] := by
  refine ⟨?_, ?_, by decide, by decide⟩
  · intro seg r hseg hdotseg hsafe hpct hrt
    rw [tablePat_eq_wrap seg hpct]
    have hall : ∀ c ∈ wrapList seg, c ∉ regexSpecials ∧ c ≠ '.' :=
      safe_lits_wrapList seg (fun c hc => ⟨hsafe c hc, fun e => hdotseg (e ▸ hc)⟩)
    refine ⟨(wrapList seg).map RChar.lit, compile_lits _ hall, ?_⟩
    rw [searchFrom_lits, pyLower_wrapList, pyLower_wrapList,
      wrap_infix_wrap (pyLower seg) (pyLower r.ReferencedTable.data)
        (comma_not_mem_pyLower seg hseg) (comma_not_mem_pyLower _ hrt)]
    exact eq_comm
  · intro rest r hcomma hdotr hsafe
    have hall : ∀ c ∈ rest, c ∉ regexSpecials ∧ c ≠ '.' :=
      fun c hc => ⟨hsafe c hc, fun e => hdotr (e ▸ hc)⟩
    have hpat : tablePat ('%' :: rest) = rest := by
      rw [tablePat, if_pos rfl]
    rw [hpat]
    refine ⟨rest.map RChar.lit, compile_lits _ hall, ?_⟩
    rw [searchFrom_lits, pyLower_wrapList]
    exact substr_wrap (pyLower rest) (pyLower r.ReferencedTable.data)
      (comma_not_mem_pyLower rest hcomma)

/-- C8, witness: both directions instantiated on the spec's example row
(`"ook"` is not table-equal to `"Bookings"`; `"ook"` is a substring). -/
theorem C8_table_matching_witness :
    (∃ tp, compilePattern (tablePat "ook".data) = some tp ∧
      (searchFrom tp (wrapList "Bookings".data) = true ↔
        pyLower "Bookings".data = pyLower "ook".data)) ∧
    (∃ tp, compilePattern (tablePat ('%' :: "ook".data)) = some tp ∧
      (searchFrom tp (wrapList "Bookings".data) = true ↔
        pyLower "ook".data <:+: pyLower "Bookings".data)) :=
  ⟨C8_table_matching.1 "ook".data ⟨"V2", "Bookings", "id"⟩ (by decide) (by decide)
      (by decide) (by decide) (by decide),
    C8_table_matching.2.1 "ook".data ⟨"V2", "Bookings", "id"⟩ (by decide)
      (by decide) (by decide)⟩

/-! ## Claim C9 -/

/-- C9: a query consisting only of commas and whitespace parses to zero
terms and returns exactly one result record per distinct view name of the
dependency relation, in ascending alphabetical order. -/
theorem C9_empty_query (df : List DepRow) (q : String) (vc : List ColsRow)
    (code : List (String × String))
    (hq : ∀ c ∈ q.data, c = ',' ∨ pyIsSpace c = true) :
    ∃ res, (search_view_dependencies df q vc code).1 = some res ∧
      res.map (fun rec => rec.View) =
        sortStrings ((df.map (fun r => r.ViewName)).dedup) ∧
      (res.map (fun rec => rec.View)).Sorted (· ≤ ·) ∧
      (res.map (fun rec => rec.View)).Nodup ∧
      ∀ v, (v ∈ res.map (fun rec => rec.View) ↔
        v ∈ df.map (fun r => r.ViewName)) := by
  have htok : tokenize q = [] := by
    rw [tokenize]
    have hall : ∀ c ∈ q.data.map (fun c => if c = ',' then ' ' else c),
        pyIsSpace c = true := by
      intro c hc
      rcases List.mem_map.mp hc with ⟨d, hd, rfl⟩
      rcases hq d hd with rfl | hsp
      · simp [pyIsSpace]
      · have hd' : ¬(d = ',') := by
          intro e
          rw [e] at hsp
          exact absurd hsp (by decide)
        rw [if_neg hd']
        exact hsp
    rw [splitWs, splitWsAux_all_space _ [] hall]
    simp
  have hmv : matchedViews (wrapDf df) vc [] =
      some ((df.map (fun r => r.ViewName)).dedup) := by
    rw [matchedViews, List.foldl_nil, wrapDf_viewNames]
  have hviews : ((sortStrings ((df.map (fun r => r.ViewName)).dedup)).map
      (assembleView (wrapDf df) vc code)).map (fun rec => rec.View) =
      sortStrings ((df.map (fun r => r.ViewName)).dedup) := by
    rw [List.map_map]
    have : ((fun rec : ResultRecord => rec.View) ∘ assembleView (wrapDf df) vc code) =
        fun v : String => v := rfl
    rw [this, List.map_id']
  refine ⟨(sortStrings ((df.map (fun r => r.ViewName)).dedup)).map
    (assembleView (wrapDf df) vc code), ?_, hviews, ?_, ?_, ?_⟩
  · simp only [search_view_dependencies, htok, hmv]
  · rw [hviews]
    exact sortStrings_sorted _
  · rw [hviews]
    exact ((sortStrings_perm _).nodup_iff).mpr (List.nodup_dedup _)
  · intro v
    rw [hviews, (sortStrings_perm _).mem_iff, List.mem_dedup]

/-- C9, witness: the empty-style query `" , "` on a two-view relation
returns the records of `A` and `B` in alphabetical order. -/
theorem C9_empty_query_witness :
    ∃ res, (search_view_dependencies
        [⟨"B", "t", "c"⟩, ⟨"A", "u", "d"⟩] " , " [] []).1 = some res ∧
      res.map (fun rec => rec.View) =
        sortStrings ((([⟨"B", "t", "c"⟩, ⟨"A", "u", "d"⟩] : List DepRow).map
          (fun r => r.ViewName)).dedup) ∧
      (res.map (fun rec => rec.View)).Sorted (· ≤ ·) ∧
      (res.map (fun rec => rec.View)).Nodup ∧
      ∀ v, (v ∈ res.map (fun rec => rec.View) ↔
        v ∈ ([⟨"B", "t", "c"⟩, ⟨"A", "u", "d"⟩] : List DepRow).map
          (fun r => r.ViewName)) :=
  C9_empty_query [⟨"B", "t", "c"⟩, ⟨"A", "u", "d"⟩] " , " [] [] (by decide)

/-! ## Claim C10 -/

/-- C10: for any permutation of a query's terms the engine computes the
same matched-view value — the same set when no term raises, and a raised
error in both orders otherwise (intersection of per-term candidate sets is
commutative and associative). -/
theorem C10_term_order (df : List DepRow) (vc : List ColsRow)
    (ts1 ts2 : List (List Char)) (hp : ts1.Perm ts2) :
    matchedViews df vc ts1 = matchedViews df vc ts2 := by
  rw [matchedViews, matchedViews]
  exact foldl_step_perm df vc hp _

/-- C10, witness: swapping the two terms of `"booking customer"` leaves
the matched set unchanged. -/
theorem C10_term_order_witness :
    matchedViews [⟨"V1", "Booking", ",id,name,"⟩, ⟨"V1", "Customer", ",id,"⟩]
        [] ["booking".data, "customer".data] =
      matchedViews [⟨"V1", "Booking", ",id,name,"⟩, ⟨"V1", "Customer", ",id,"⟩]
        [] ["customer".data, "booking".data] :=
  C10_term_order [⟨"V1", "Booking", ",id,name,"⟩, ⟨"V1", "Customer", ",id,"⟩]
    [] ["booking".data, "customer".data] ["customer".data, "booking".data]
    (by decide)

end SearchViews
